import Mathlib

/-!
# go-error-buffer: a verification development

Shallow embedding of `error_buffer.go` (package `go_error_buffer`).

* An instant is represented by its `UnixNano` reading and a `time.Duration` by
  its number of nanoseconds; both are `int64` in Go. They are integers here,
  and every place where Go computes a new `int64` from them (`timestamp++`,
  the pruning cutoff, the span) reduces the exact result with `wrap64`, as
  Go's arithmetic does.
* The package-level clock `now` is an explicit argument of `Add`.
* An `error` argument is an `Option`: `none` is Go's `nil`.
-/

namespace go_error_buffer

/-! ## Machine integers -/

/-- The smallest `int64`, `-2 ^ 63`. -/
def minInt64 : Int := -9223372036854775808

/-- The largest `int64`, `2 ^ 63 - 1`. -/
def maxInt64 : Int := 9223372036854775807

/-- The `int64` that Go computes where the exact result is `x`: `x` reduced
modulo `2 ^ 64` into the range from `minInt64` to `maxInt64`. -/
def wrap64 (x : Int) : Int :=
  (x + 9223372036854775808) % 18446744073709551616 - 9223372036854775808

/-! ## The ordered store -/

namespace orderedmap

/-- Modelled from the spec: the ordered store `orderedmap.OrderedMap[int64, error]`
comes from a library outside the repository. It holds (timestamp, error) pairs
and is traversed from the oldest to the newest inserted pair; here it is the
list of its pairs in that order. -/
abbrev OrderedMap (ε : Type) := List (Int × ε)

/-- Modelled from the spec: `Set` of the ordered store. A key that is already
present keeps its place and gets the new value; a new key is inserted at the
newest end. -/
def Set {ε : Type} (om : OrderedMap ε) (key : Int) (value : ε) : OrderedMap ε :=
  if om.any (fun pair => decide (pair.1 = key)) then
    om.map (fun pair => if pair.1 = key then (key, value) else pair)
  else
    om ++ [(key, value)]

/-- Modelled from the spec: `Delete` of the ordered store, deletion by key. -/
def Delete {ε : Type} (om : OrderedMap ε) (key : Int) : OrderedMap ε :=
  om.filter (fun pair => decide (pair.1 ≠ key))

/-- Modelled from the spec: `Len` of the ordered store. -/
def Len {ε : Type} (om : OrderedMap ε) : Nat := om.length

/-- Modelled from the spec: `Oldest` of the ordered store, `none` when empty. -/
def Oldest {ε : Type} (om : OrderedMap ε) : Option (Int × ε) := om.head?

/-- Modelled from the spec: `Newest` of the ordered store, `none` when empty. -/
def Newest {ε : Type} (om : OrderedMap ε) : Option (Int × ε) := om.getLast?

end orderedmap

open orderedmap

/-! ## The buffer -/

/-- The struct `ErrorBuffer`. -/
structure ErrorBuffer (ε : Type) where
  maxCount : Nat
  window : Int
  errors : OrderedMap ε
  previousTimestamp : Int
deriving DecidableEq

/-- What `Add` returns: `nil`, the argument itself, or the wrapped
`multierror.Error`. The wrapping `"too many errors! %d errors in %v"` is kept as
its two arguments `count` and `span`; each cause `Wrapf(pair.Value, "at %v",
time.Unix(0, pair.Key))` is kept as the pair of the key and the value. -/
inductive AddResult (ε : Type) where
  | nil : AddResult ε
  | passthrough (err : ε) : AddResult ε
  | aggregate (count : Nat) (span : Int) (causes : List (Int × ε)) : AddResult ε
deriving DecidableEq, Repr

/-- The constructor `NewErrorBuffer`; `previousTimestamp` has Go's zero value. -/
def NewErrorBuffer {ε : Type} (maxCount : Nat) (window : Int) : ErrorBuffer ε :=
  { maxCount := maxCount, window := window, errors := [], previousTimestamp := 0 }

/-- The loop of `prune`,
`for pair := b.errors.Oldest(); pair != nil && pair.Key < cutoff; pair = pair.Next()`
with body `b.errors.Delete(pair.Key)`; `pair` is the cursor the loop starts
from and `om` the store.

When the body has run, the cursor is a pair that has just been deleted. The
store's library unlinks a deleted pair from its list, so `pair.Next()` is then
nil and the loop ends: it deletes the first pair it looks at, if that pair is
below the cutoff, and never looks at a second one. -/
def pruneLoop {ε : Type} (cutoff : Int) (pair : Option (Int × ε)) (om : OrderedMap ε) :
    OrderedMap ε :=
  match pair with
  | none => om
  | some pair => if pair.1 < cutoff then Delete om pair.1 else om

/-- The method `prune`. Its cutoff is `now.Add(-b.window).UnixNano()`: the
instant `now - window`, read as an `int64` number of nanoseconds. -/
def prune {ε : Type} (b : ErrorBuffer ε) (now : Int) : ErrorBuffer ε :=
  { b with errors := pruneLoop (wrap64 (now - b.window)) (Oldest b.errors) b.errors }

/-- The span `b.errors.Newest().Key - b.errors.Oldest().Key`, an `int64`
subtraction; the store is not empty where `Add` computes it. -/
def span {ε : Type} (om : OrderedMap ε) : Int :=
  match Newest om, Oldest om with
  | some newest, some oldest => wrap64 (newest.1 - oldest.1)
  | _, _ => 0

/-- The key under which `Add` stores an error read at `now`:
`if b.previousTimestamp == timestamp { timestamp++ }` on an `int64`. -/
def timestampFor (previousTimestamp now : Int) : Int :=
  if previousTimestamp = now then wrap64 (now + 1) else now

/-- The method `Add`; `now` is what the clock returns when `Add` reads it. -/
def Add {ε : Type} (b : ErrorBuffer ε) (now : Int) (err : Option ε) :
    ErrorBuffer ε × AddResult ε :=
  match err with
  | none => (b, AddResult.nil)
  | some e =>
    let timestamp := timestampFor b.previousTimestamp now
    let b1 : ErrorBuffer ε :=
      { b with previousTimestamp := timestamp, errors := orderedmap.Set b.errors timestamp e }
    let b2 := prune b1 now
    let newLen := Len b2.errors
    if newLen ≤ b2.maxCount then (b2, AddResult.nil)
    else if newLen = 1 then (b2, AddResult.passthrough e)
    else (b2, AddResult.aggregate newLen (span b2.errors) b2.errors)

/-! ## Sequences of calls -/

/-- A call `Add(err)` together with the clock reading it would get. -/
abbrev Call (ε : Type) := Int × Option ε

/-- The buffer after a sequence of `Add` calls. -/
def addAll {ε : Type} (b : ErrorBuffer ε) : List (Call ε) → ErrorBuffer ε
  | [] => b
  | call :: rest => addAll (Add b call.1 call.2).1 rest

/-- The results of a sequence of `Add` calls, in order. -/
def addResults {ε : Type} (b : ErrorBuffer ε) : List (Call ε) → List (AddResult ε)
  | [] => []
  | call :: rest => (Add b call.1 call.2).2 :: addResults (Add b call.1 call.2).1 rest

/-- The clock readings of the calls with a non-nil error: `Add(nil)` does not
read the clock. -/
def readings {ε : Type} (calls : List (Call ε)) : List Int :=
  calls.filterMap (fun call => call.2.map (fun _ => call.1))

/-- The keys that successive `Add` calls assign to the given clock readings,
starting from the given `previousTimestamp`. -/
def keysFrom (previousTimestamp : Int) : List Int → List Int
  | [] => []
  | now :: rest =>
    timestampFor previousTimestamp now :: keysFrom (timestampFor previousTimestamp now) rest

/-- The number of calls with a non-nil error. -/
def nonNilCount {ε : Type} (calls : List (Call ε)) : Nat :=
  (calls.filter (fun call => call.2.isSome)).length

/-- The calls of a steady stream: `k` non-nil errors `err 0`, ..., `err (k - 1)`,
the `i`-th one (counting from 1) read at instant `t0 + i * d`. -/
def steadyCalls {ε : Type} (t0 d : Int) (err : Nat → ε) (k : Nat) : List (Call ε) :=
  (List.range k).map (fun (i : Nat) => (t0 + ((i : Int) + 1) * d, some (err i)))

/-- The entries under which the calls number `lo + 1`, ..., `lo + len` of a
steady stream are stored when no tie-break occurs: each error under its clock
reading. -/
def steadyEntries {ε : Type} (t0 d : Int) (err : Nat → ε) (lo len : Nat) : List (Int × ε) :=
  (List.range' lo len).map (fun (i : Nat) => (t0 + ((i : Int) + 1) * d, err i))

/-! ## Machine integers: the range in which nothing wraps -/

theorem wrap64_of_range (x : Int) (hlo : minInt64 ≤ x) (hhi : x ≤ maxInt64) : wrap64 x = x := by
  unfold wrap64
  unfold minInt64 at hlo
  unfold maxInt64 at hhi
  omega

theorem wrap64_le_max (x : Int) : wrap64 x ≤ maxInt64 := by
  unfold wrap64 maxInt64
  omega

theorem wrap64_le_self (x : Int) (hlo : minInt64 ≤ x) : wrap64 x ≤ x := by
  unfold wrap64
  unfold minInt64 at hlo
  omega

/-! ## The store and the pruning loop -/

section basic
variable {ε : Type}

theorem Set_length_le (om : OrderedMap ε) (k : Int) (v : ε) :
    (orderedmap.Set om k v).length ≤ om.length + 1 := by
  unfold orderedmap.Set; split <;> simp

theorem Set_length_ge (om : OrderedMap ε) (k : Int) (v : ε) :
    om.length ≤ (orderedmap.Set om k v).length := by
  unfold orderedmap.Set; split <;> simp

theorem Set_mem_self (om : OrderedMap ε) (k : Int) (v : ε) : (k, v) ∈ orderedmap.Set om k v := by
  unfold orderedmap.Set
  split
  · rename_i h
    obtain ⟨p, hp, hk⟩ := List.any_eq_true.mp h
    simp only [decide_eq_true_eq] at hk
    exact List.mem_map.mpr ⟨p, hp, by simp [hk]⟩
  · simp

theorem Set_mem_of_ne (om : OrderedMap ε) (k : Int) (v : ε) (p : Int × ε) (hp : p ∈ om)
    (hne : p.1 ≠ k) : p ∈ orderedmap.Set om k v := by
  unfold orderedmap.Set
  split
  · exact List.mem_map.mpr ⟨p, hp, by rw [if_neg hne]⟩
  · exact List.mem_append_left _ hp

/-- The oldest pair of a store that is not empty keeps its key through `Set`. -/
theorem Set_oldest_key (p : Int × ε) (rest : List (Int × ε)) (k : Int) (v : ε) :
    ∃ q, Oldest (orderedmap.Set (p :: rest) k v) = some q ∧ q.1 = p.1 := by
  unfold orderedmap.Set Oldest
  split
  · by_cases hp : p.1 = k
    · exact ⟨(k, v), by simp [hp], hp.symm⟩
    · exact ⟨p, by simp [hp], rfl⟩
  · exact ⟨p, by simp, rfl⟩

theorem Delete_length_le (om : OrderedMap ε) (k : Int) : (Delete om k).length ≤ om.length :=
  List.length_filter_le _ _

theorem pruneLoop_length_le (cutoff : Int) (pair : Option (Int × ε)) (om : OrderedMap ε) :
    (pruneLoop cutoff pair om).length ≤ om.length := by
  unfold pruneLoop
  split
  · exact le_rfl
  · split
    · exact Delete_length_le _ _
    · exact le_rfl

theorem pruneLoop_mem_of_le (cutoff : Int) (pair : Option (Int × ε)) (om : OrderedMap ε)
    (p : Int × ε) (hp : p ∈ om) (hc : cutoff ≤ p.1) : p ∈ pruneLoop cutoff pair om := by
  unfold pruneLoop
  split
  · exact hp
  · split
    · rename_i q hq
      unfold Delete
      refine List.mem_filter.mpr ⟨hp, ?_⟩
      simp only [ne_eq, decide_not, Bool.not_eq_eq_eq_not, Bool.not_true, decide_eq_false_iff_not]
      omega
    · exact hp

theorem pruneLoop_sublist (cutoff : Int) (pair : Option (Int × ε)) (om : OrderedMap ε) :
    (pruneLoop cutoff pair om).Sublist om := by
  unfold pruneLoop
  split
  · exact List.Sublist.refl _
  · split
    · exact List.filter_sublist _
    · exact List.Sublist.refl _

/-- The loop deletes nothing when the pair it starts from is not below the
cutoff. -/
theorem pruneLoop_of_oldest_ge (cutoff : Int) (q : Int × ε) (om : OrderedMap ε)
    (h : cutoff ≤ q.1) : pruneLoop cutoff (some q) om = om := by
  unfold pruneLoop
  simp only
  rw [if_neg (by omega)]

theorem Add_none (b : ErrorBuffer ε) (now : Int) : Add b now none = (b, AddResult.nil) := rfl

theorem Add_errors (b : ErrorBuffer ε) (now : Int) (e : ε) :
    (Add b now (some e)).1.errors =
      pruneLoop (wrap64 (now - b.window))
        (Oldest (orderedmap.Set b.errors (timestampFor b.previousTimestamp now) e))
        (orderedmap.Set b.errors (timestampFor b.previousTimestamp now) e) := by
  simp only [Add, prune]
  split_ifs <;> rfl

theorem Add_maxCount (b : ErrorBuffer ε) (now : Int) (err : Option ε) :
    (Add b now err).1.maxCount = b.maxCount := by
  cases err with
  | none => rfl
  | some e => simp only [Add, prune]; split_ifs <;> rfl

theorem Add_window (b : ErrorBuffer ε) (now : Int) (err : Option ε) :
    (Add b now err).1.window = b.window := by
  cases err with
  | none => rfl
  | some e => simp only [Add, prune]; split_ifs <;> rfl

theorem Add_previousTimestamp (b : ErrorBuffer ε) (now : Int) (e : ε) :
    (Add b now (some e)).1.previousTimestamp = timestampFor b.previousTimestamp now := by
  simp only [Add, prune]; split_ifs <;> rfl

theorem Add_result (b : ErrorBuffer ε) (now : Int) (e : ε) :
    (Add b now (some e)).2 =
      if (Add b now (some e)).1.errors.length ≤ b.maxCount then AddResult.nil
      else if (Add b now (some e)).1.errors.length = 1 then AddResult.passthrough e
      else AddResult.aggregate (Add b now (some e)).1.errors.length
        (span (Add b now (some e)).1.errors) (Add b now (some e)).1.errors := by
  rw [Add_errors]
  simp only [Add, prune, Len]
  split_ifs <;> rfl

theorem Add_result_ne_nil_iff (b : ErrorBuffer ε) (now : Int) (e : ε) :
    (Add b now (some e)).2 ≠ AddResult.nil ↔ b.maxCount < (Add b now (some e)).1.errors.length := by
  rw [Add_result]
  split_ifs <;> simp <;> omega

theorem Add_errors_length_le (b : ErrorBuffer ε) (now : Int) (err : Option ε) :
    (Add b now err).1.errors.length ≤ b.errors.length + (if err.isSome then 1 else 0) := by
  cases err with
  | none => simp [Add_none]
  | some e =>
    rw [Add_errors]
    exact (pruneLoop_length_le _ _ _).trans (by simpa using Set_length_le _ _ _)

end basic

section store
variable {ε : Type}

theorem any_key_iff (om : OrderedMap ε) (k : Int) :
    om.any (fun pair => decide (pair.1 = k)) = true ↔ k ∈ om.map Prod.fst := by
  simp only [List.any_eq_true, decide_eq_true_eq, List.mem_map]

theorem Set_of_not_mem (om : OrderedMap ε) (k : Int) (v : ε) (h : k ∉ om.map Prod.fst) :
    orderedmap.Set om k v = om ++ [(k, v)] := by
  unfold orderedmap.Set
  rw [if_neg]
  rw [any_key_iff]; exact h

theorem Delete_head (p : Int × ε) (rest : List (Int × ε)) (h : p.1 ∉ rest.map Prod.fst) :
    Delete (p :: rest) p.1 = rest := by
  unfold Delete
  rw [List.filter_cons_of_neg (by simp)]
  apply List.filter_eq_self.mpr
  intro q hq
  simp only [ne_eq, decide_not, Bool.not_eq_eq_eq_not, Bool.not_true, decide_eq_false_iff_not]
  intro hqk
  exact h (hqk ▸ List.mem_map_of_mem Prod.fst hq)

end store

/-! ## Sequences of calls -/

section reach
variable {ε : Type}

theorem addAll_append (b : ErrorBuffer ε) (l1 l2 : List (Call ε)) :
    addAll b (l1 ++ l2) = addAll (addAll b l1) l2 := by
  induction l1 generalizing b with
  | nil => rfl
  | cons c rest ih => exact ih _

theorem addAll_snoc (b : ErrorBuffer ε) (calls : List (Call ε)) (now : Int) (err : Option ε) :
    addAll b (calls ++ [(now, err)]) = (Add (addAll b calls) now err).1 := by
  rw [addAll_append]; rfl

theorem addAll_maxCount (b : ErrorBuffer ε) (calls : List (Call ε)) :
    (addAll b calls).maxCount = b.maxCount := by
  induction calls generalizing b with
  | nil => rfl
  | cons c rest ih => simp only [addAll, ih, Add_maxCount]

theorem addAll_window (b : ErrorBuffer ε) (calls : List (Call ε)) :
    (addAll b calls).window = b.window := by
  induction calls generalizing b with
  | nil => rfl
  | cons c rest ih => simp only [addAll, ih, Add_window]

theorem readings_snoc_none (calls : List (Call ε)) (now : Int) :
    readings (calls ++ [(now, (none : Option ε))]) = readings calls := by
  simp [readings, List.filterMap_append]

theorem readings_snoc_some (calls : List (Call ε)) (now : Int) (e : ε) :
    readings (calls ++ [(now, some e)]) = readings calls ++ [now] := by
  simp [readings, List.filterMap_append]

theorem addResults_snoc (b : ErrorBuffer ε) (calls : List (Call ε)) (now : Int)
    (err : Option ε) :
    addResults b (calls ++ [(now, err)])
      = addResults b calls ++ [(Add (addAll b calls) now err).2] := by
  induction calls generalizing b with
  | nil => rfl
  | cons c rest ih =>
    show (Add b c.1 c.2).2 :: addResults (Add b c.1 c.2).1 (rest ++ [(now, err)]) = _
    rw [ih]
    rfl

theorem addResults_nil_of_room (b : ErrorBuffer ε) (calls : List (Call ε))
    (h : b.errors.length + nonNilCount calls ≤ b.maxCount) :
    ∀ r ∈ addResults b calls, r = AddResult.nil := by
  induction calls generalizing b with
  | nil => intro r hr; simp [addResults] at hr
  | cons call rest ih =>
    obtain ⟨now, err⟩ := call
    have hlen := Add_errors_length_le b now err
    have hcount : nonNilCount ((now, err) :: rest)
        = (if err.isSome then 1 else 0) + nonNilCount rest := by
      cases err with
      | none => simp [nonNilCount, List.filter_cons]
      | some e => simp [nonNilCount, List.filter_cons]; omega
    rw [hcount] at h
    intro r hr
    simp only [addResults, List.mem_cons] at hr
    rcases hr with rfl | hr
    · cases err with
      | none => rfl
      | some e =>
        by_contra hne
        have := (Add_result_ne_nil_iff b now e).mp hne
        simp only [Option.isSome_some, if_true] at hlen h
        omega
    · exact ih (Add b now err).1 (by rw [Add_maxCount]; omega) r hr

/-- As long as every call returned nil, the store holds at most `maxCount`
entries. -/
theorem addAll_length_le_of_nil (b : ErrorBuffer ε) (calls : List (Call ε))
    (hb : b.errors.length ≤ b.maxCount)
    (hnil : ∀ r ∈ addResults b calls, r = AddResult.nil) :
    (addAll b calls).errors.length ≤ b.maxCount := by
  induction calls using List.list_reverse_induction with
  | base => exact hb
  | ind calls call ih =>
    obtain ⟨now, err⟩ := call
    rw [addResults_snoc] at hnil
    have hprev := ih (fun r hr => hnil r (List.mem_append_left _ hr))
    have hlast := hnil (Add (addAll b calls) now err).2 (by simp)
    rw [addAll_snoc]
    cases err with
    | none => rw [Add_none]; exact hprev
    | some e =>
      by_contra hgt
      have := (Add_result_ne_nil_iff (addAll b calls) now e).mpr
        (by rw [addAll_maxCount]; omega)
      exact this hlast

end reach

/-! ## The entry just added -/

section fresh
variable {ε : Type}

/-- Without `int64` overflow in the tie-break, the key is the reading or the
reading plus one. -/
theorem timestampFor_eq (prev now : Int) (hlo : minInt64 ≤ now) (hhi : now < maxInt64) :
    timestampFor prev now = now ∨ timestampFor prev now = now + 1 := by
  unfold timestampFor
  split
  · right
    exact wrap64_of_range _ (by omega) (by omega)
  · left; rfl

/-- With `window ≥ 0` and without `int64` overflow, the cutoff is not above the
key of the call. -/
theorem cutoff_le_timestampFor (prev now window : Int) (hw : 0 ≤ window)
    (hlo : minInt64 ≤ now - window) (hhi : now < maxInt64) :
    wrap64 (now - window) ≤ timestampFor prev now := by
  have h1 := wrap64_le_self (now - window) hlo
  rcases timestampFor_eq prev now (by omega) hhi with h | h <;> omega

/-- The entry stored by an `Add` is still there after its pruning when the
cutoff is not above its key. -/
theorem Add_new_entry_mem (b : ErrorBuffer ε) (now : Int) (err : ε)
    (hcut : wrap64 (now - b.window) ≤ timestampFor b.previousTimestamp now) :
    (timestampFor b.previousTimestamp now, err) ∈ (Add b now (some err)).1.errors := by
  rw [Add_errors]
  exact pruneLoop_mem_of_le _ _ _ _ (Set_mem_self _ _ _) hcut

/-- A last-used timestamp that is the largest `int64` or more is a key of the
store: the pruning of the call that assigned it cannot have removed it. -/
theorem Add_previousTimestamp_mem (b : ErrorBuffer ε) (now : Int) (e : ε)
    (h : maxInt64 ≤ (Add b now (some e)).1.previousTimestamp) :
    ∃ v, ((Add b now (some e)).1.previousTimestamp, v) ∈ (Add b now (some e)).1.errors := by
  rw [Add_previousTimestamp] at h ⊢
  exact ⟨e, Add_new_entry_mem b now e ((wrap64_le_max _).trans h)⟩

theorem addAll_previousTimestamp_mem (maxCount : Nat) (window : Int) (calls : List (Call ε))
    (h : maxInt64 ≤ (addAll (NewErrorBuffer maxCount window : ErrorBuffer ε)
      calls).previousTimestamp) :
    ∃ v, ((addAll (NewErrorBuffer maxCount window : ErrorBuffer ε) calls).previousTimestamp, v)
      ∈ (addAll (NewErrorBuffer maxCount window : ErrorBuffer ε) calls).errors := by
  induction calls using List.list_reverse_induction with
  | base =>
    have : (NewErrorBuffer maxCount window : ErrorBuffer ε).previousTimestamp = 0 := rfl
    simp only [addAll] at h
    rw [this] at h
    unfold maxInt64 at h
    omega
  | ind calls call ih =>
    obtain ⟨now, err⟩ := call
    rw [addAll_snoc] at h ⊢
    cases err with
    | none => rw [Add_none] at h ⊢; exact ih h
    | some e => exact Add_previousTimestamp_mem _ now e h

end fresh

/-! ## The claims -/

/-- C1 (failing input): capacity 1, window 3, errors read at instants 5, 6 and
20. At the third call only one error added so far has a reading that is at
least `now - window = 17`, which does not exceed the capacity, yet `Add` returns
an aggregate of 2 errors spanning 14: `prune` has removed the entry of key 5 and
left the entry of key 6 in the store. -/
theorem overflow_reported_with_one_error_in_window :
    addResults (NewErrorBuffer 1 3 : ErrorBuffer Nat) [(5, some 1), (6, some 2), (20, some 3)]
        = [AddResult.nil, AddResult.aggregate 2 1 [(5, 1), (6, 2)],
            AddResult.aggregate 2 14 [(6, 2), (20, 3)]] ∧
      ((readings ([(5, some 1), (6, some 2), (20, some 3)] : List (Call Nat))).filter
        (fun r => decide (20 - 3 ≤ r))).length = 1 := by
  decide

/-- C2 (failing input): capacity 5, window 3, errors read at instants 5, 6 and
20. After the third call the store still holds the entry of key 6, which is
below `now - window = 17`: `prune` has removed the entry of key 5 only. -/
theorem expired_entry_left_by_prune :
    (addAll (NewErrorBuffer 5 3 : ErrorBuffer Nat)
        [(5, some 1), (6, some 2), (20, some 3)]).errors = [(6, 2), (20, 3)] ∧
      ∃ p ∈ (addAll (NewErrorBuffer 5 3 : ErrorBuffer Nat)
        [(5, some 1), (6, some 2), (20, some 3)]).errors, p.1 < 20 - 3 :=
  ⟨by decide, (6, 2), by decide, by decide⟩

/-- C3: on a freshly created buffer with capacity `c`, for every sequence of calls
with at most `c` non-nil errors, whatever the clock readings (so also when the
errors arrive within `window` of each other), every `Add` call returns nil. -/
theorem Add_nil_below_threshold {ε : Type} (c : Nat) (window : Int) (calls : List (Call ε))
    (h : nonNilCount calls ≤ c) :
    ∀ r ∈ addResults (NewErrorBuffer c window) calls, r = AddResult.nil :=
  addResults_nil_of_room (NewErrorBuffer c window) calls (by simpa [NewErrorBuffer] using h)

/-- C3, at capacity 2 and window 60 with two errors 10 apart and a nil between. -/
theorem Add_nil_below_threshold_witness :
    nonNilCount ([(100, some 1), (105, none), (110, some 2)] : List (Call Nat)) ≤ 2 ∧
      ∀ r ∈ addResults (NewErrorBuffer 2 60)
        ([(100, some 1), (105, none), (110, some 2)] : List (Call Nat)), r = AddResult.nil :=
  ⟨by decide, Add_nil_below_threshold 2 60 [(100, some 1), (105, none), (110, some 2)]
    (by decide)⟩

/-- C4: for every buffer state and every `Add` of a non-nil error, if the number
`n` of entries left in the store after pruning (the store of the resulting state)
exceeds the capacity, the result is non-nil, and when it is an aggregate its
reported count is `n`, which is also the number of causes it lists. -/
theorem Add_overflow_count {ε : Type} (b : ErrorBuffer ε) (now : Int) (e : ε)
    (h : b.maxCount < (Add b now (some e)).1.errors.length) :
    (Add b now (some e)).2 ≠ AddResult.nil ∧
      ∀ count sp causes, (Add b now (some e)).2 = AddResult.aggregate count sp causes →
        count = (Add b now (some e)).1.errors.length ∧ causes.length = count := by
  refine ⟨(Add_result_ne_nil_iff b now e).mpr h, ?_⟩
  intro count sp causes hres
  rw [Add_result] at hres
  split_ifs at hres
  simp only [AddResult.aggregate.injEq] at hres
  exact ⟨hres.1.symm, by rw [← hres.2.2, ← hres.1]⟩

/-- C4, on the buffer of capacity 1 that holds one error read at 5. -/
theorem Add_overflow_count_witness :
    (addAll (NewErrorBuffer 1 0) [(5, some (1 : Nat))]).maxCount
        < (Add (addAll (NewErrorBuffer 1 0) [(5, some (1 : Nat))]) 5 (some 2)).1.errors.length ∧
      ((Add (addAll (NewErrorBuffer 1 0) [(5, some (1 : Nat))]) 5 (some 2)).2 ≠ AddResult.nil ∧
        ∀ count sp causes,
          (Add (addAll (NewErrorBuffer 1 0) [(5, some (1 : Nat))]) 5 (some 2)).2
              = AddResult.aggregate count sp causes →
            count = (Add (addAll (NewErrorBuffer 1 0) [(5, some (1 : Nat))]) 5
              (some 2)).1.errors.length ∧ causes.length = count) :=
  ⟨by decide, Add_overflow_count (addAll (NewErrorBuffer 1 0) [(5, some (1 : Nat))]) 5 2
    (by decide)⟩

/-- C5 (failing input): capacity 1, window 0, two errors both read at instant 0,
the Unix epoch. The zero value of `previousTimestamp` makes the first key 1 and
the second key 0, so the second call returns an aggregate whose span is
`0 - 1 = -1`: negative, and not the largest key minus the smallest. -/
theorem span_negative_at_epoch :
    addResults (NewErrorBuffer 1 0 : ErrorBuffer Nat) [(0, some 1), (0, some 2)]
      = [AddResult.nil, AddResult.aggregate 2 (-1) [(1, 1), (0, 2)]] := by
  decide

/-- C6 (failing input): capacity 1, window 0, three errors all read at instant 5.
The third error gets key 5 again and replaces the first one in place, so the
aggregate of the third call lists the error just added first, before the error
of the second call. -/
theorem causes_out_of_order_at_third_tie :
    addResults (NewErrorBuffer 1 0 : ErrorBuffer Nat) [(5, some 1), (5, some 2), (5, some 3)]
      = [AddResult.nil, AddResult.aggregate 2 1 [(5, 1), (6, 2)],
          AddResult.aggregate 2 1 [(5, 3), (6, 2)]] := by
  decide

/-- C7 (failing input): capacity 5, window 0, three errors all read at instant 5.
After the second and third calls, which read the same instant, the store holds
the third error under key 5 before the second error under key 6, and the first
error has been overwritten. -/
theorem third_tie_overwrites_first :
    (addAll (NewErrorBuffer 5 0 : ErrorBuffer Nat)
        [(5, some 1), (5, some 2), (5, some 3)]).errors = [(5, 3), (6, 2)] := by
  decide

/-- C8 (failing input): capacity 1, window one minute, two errors both read at
instant 0, the Unix epoch: the second call reports 2 errors with a span of -1
nanosecond instead of 1 nanosecond. -/
theorem tie_at_epoch_spans_minus_one :
    addResults (NewErrorBuffer 1 60000000000 : ErrorBuffer Nat) [(0, some 1), (0, some 2)]
      = [AddResult.nil, AddResult.aggregate 2 (-1) [(1, 1), (0, 2)]] := by
  decide

/-- Away from the Unix epoch the same-instant scenario behaves as intended when
nothing overflows: for every instant `t ≠ 0` below the largest `int64` and every
`window ≥ 0` with `t - window` not below the smallest `int64`, on a new buffer
of capacity 1 two errors read at `t` give nil and then an aggregate of 2 errors
spanning 1. -/
theorem tie_off_epoch_spans_one {ε : Type} (t window : Int) (e1 e2 : ε) (ht : t ≠ 0)
    (hw : 0 ≤ window) (hlo : minInt64 ≤ t - window) (hhi : t < maxInt64) :
    addResults (NewErrorBuffer 1 window) [(t, some e1), (t, some e2)]
      = [AddResult.nil, AddResult.aggregate 2 1 [(t, e1), (t + 1, e2)]] := by
  have h1 : ¬ (0 : Int) = t := fun h => ht h.symm
  have hcut : wrap64 (t - window) = t - window := wrap64_of_range _ hlo (by omega)
  have hts : wrap64 (t + 1) = t + 1 := wrap64_of_range _ (by omega) (by omega)
  have hsp : wrap64 1 = 1 := by decide
  have h2 : ¬ t < t - window := by omega
  have h3 : ¬ t + 1 = t := by omega
  simp [addResults, Add, NewErrorBuffer, prune, pruneLoop, orderedmap.Set, Len, timestampFor,
    span, Newest, Oldest, h1, h2, h3, hcut, hts, hsp]

/-- C9 (as stated, refuted): with capacity 0 and the negative window -1, the
first `Add`, read at instant 5, prunes its own entry and returns nil, not the
error itself; and with capacity 0 and the largest window, `2 ^ 63 - 1`, the
first `Add`, read at instant -10, does the same, the `int64` cutoff having
wrapped around to a later instant. -/
theorem passthrough_negative_window_counterexample :
    (Add (NewErrorBuffer 0 (-1) : ErrorBuffer Nat) 5 (some 7)).2 = AddResult.nil ∧
      (Add (NewErrorBuffer 0 (-1) : ErrorBuffer Nat) 5 (some 7)).2 ≠ AddResult.passthrough 7 ∧
      (Add (NewErrorBuffer 0 9223372036854775807 : ErrorBuffer Nat) (-10) (some 7)).2
        = AddResult.nil ∧
      (Add (NewErrorBuffer 0 9223372036854775807 : ErrorBuffer Nat) (-10) (some 7)).2
        ≠ AddResult.passthrough 7 := by
  decide

/-- C9 (amended): for every window `≥ 0` and every clock reading `now` such that
`now - window` is not below the smallest `int64`, on a freshly created buffer
with capacity 0 the first `Add` of a non-nil error `err` returns `err` itself,
not wrapped in an aggregate. -/
theorem Add_zero_capacity_passthrough {ε : Type} (window now : Int) (err : ε)
    (hw : 0 ≤ window) (hlo : minInt64 ≤ now - window) :
    (Add (NewErrorBuffer 0 window) now (some err)).2 = AddResult.passthrough err := by
  have hcut := wrap64_le_self (now - window) hlo
  have hts : now ≤ timestampFor 0 now := by
    unfold timestampFor
    split
    · rename_i h
      rw [← h]
      decide
    · exact le_rfl
  have hlen : (Add (NewErrorBuffer 0 window : ErrorBuffer ε) now (some err)).1.errors
      = [(timestampFor 0 now, err)] := by
    rw [Add_errors]
    simp only [NewErrorBuffer, orderedmap.Set, List.any_nil, Bool.false_eq_true, if_false,
      List.nil_append, Oldest, List.head?_cons]
    exact pruneLoop_of_oldest_ge _ _ _ (by simp only; omega)
  rw [Add_result, hlen]
  simp [NewErrorBuffer]

/-- C9 (amended), at window 0 and instant 0. -/
theorem Add_zero_capacity_passthrough_witness :
    (0 : Int) ≤ 0 ∧ minInt64 ≤ 0 - 0 ∧
      (Add (NewErrorBuffer 0 0) 0 (some (7 : Nat))).2 = AddResult.passthrough 7 :=
  ⟨by decide, by decide, Add_zero_capacity_passthrough 0 0 7 (by decide) (by decide)⟩

/-- C10 (as stated, refuted): capacity 0 and window `2 ^ 63 - 1`, which is not
negative. The `Add` of a non-nil error read at instant -10 returns nil: the
cutoff `-10 - (2 ^ 63 - 1)` wraps around to `2 ^ 63 - 9`, and the entry just
stored is pruned. -/
theorem zero_capacity_nil_at_wrapped_cutoff :
    (0 : Int) ≤ (NewErrorBuffer 0 9223372036854775807 : ErrorBuffer Nat).window ∧
      wrap64 (-10 - 9223372036854775807) = 9223372036854775799 ∧
      (Add (addAll (NewErrorBuffer 0 9223372036854775807 : ErrorBuffer Nat) []) (-10)
        (some 7)).2 = AddResult.nil := by
  decide

/-- C10 (amended): for every buffer created with capacity 0 and `window ≥ 0`, in
every state reached by `Add` calls and for every clock reading `now` such that
`now - window` is not below the smallest `int64`, `Add` of a non-nil error
returns a non-nil result. -/
theorem Add_zero_capacity_ne_nil {ε : Type} (window : Int) (calls : List (Call ε)) (now : Int)
    (err : ε) (hw : 0 ≤ window) (hlo : minInt64 ≤ now - window) :
    (Add (addAll (NewErrorBuffer 0 window) calls) now (some err)).2 ≠ AddResult.nil := by
  have hwin : (addAll (NewErrorBuffer 0 window : ErrorBuffer ε) calls).window = window :=
    addAll_window _ _
  have hcut := wrap64_le_self (now - window) hlo
  rw [Add_result_ne_nil_iff, addAll_maxCount]
  show 0 < _
  by_cases hge : wrap64 (now - window)
      ≤ timestampFor (addAll (NewErrorBuffer 0 window : ErrorBuffer ε) calls).previousTimestamp now
  · exact List.length_pos_of_mem
      (Add_new_entry_mem _ now err (by rw [hwin]; exact hge))
  · have hprev : (addAll (NewErrorBuffer 0 window : ErrorBuffer ε) calls).previousTimestamp
        = now := by
      by_contra hne
      apply hge
      unfold timestampFor
      rw [if_neg hne]
      omega
    have hmax : maxInt64 ≤ now := by
      by_contra hlt
      apply hge
      unfold timestampFor
      rw [if_pos hprev, wrap64_of_range (now + 1) (by omega) (by omega)]
      omega
    obtain ⟨v, hv⟩ := addAll_previousTimestamp_mem 0 window calls (by rw [hprev]; exact hmax)
    rw [hprev] at hv
    have hts : timestampFor (addAll (NewErrorBuffer 0 window : ErrorBuffer ε)
        calls).previousTimestamp now ≠ now := by
      intro h
      apply hge
      rw [h]
      omega
    rw [Add_errors, hwin]
    exact List.length_pos_of_mem
      (pruneLoop_mem_of_le _ _ _ (now, v)
        (Set_mem_of_ne _ _ _ (now, v) hv (fun h => hts h.symm)) (by simp only; omega))

/-- C10 (amended), on the capacity-0 buffer that already holds errors read at 10
and 5. -/
theorem Add_zero_capacity_ne_nil_witness :
    (0 : Int) ≤ 2 ∧ minInt64 ≤ 8 - 2 ∧
      (Add (addAll (NewErrorBuffer 0 2) [(10, some (1 : Nat)), (5, some 2)]) 8 (some 3)).2
        ≠ AddResult.nil :=
  ⟨by decide, by decide,
    Add_zero_capacity_ne_nil 2 [(10, some (1 : Nat)), (5, some 2)] 8 3 (by decide) (by decide)⟩

/-- C11: for every buffer state, `Add(nil)` returns nil and leaves the whole state
unchanged (entries, their order, last-used timestamp, capacity, window); the
outcome is the same whatever the clock would read, since the clock is not read. -/
theorem Add_nil_is_noop {ε : Type} (b : ErrorBuffer ε) (now : Int) :
    Add b now none = (b, AddResult.nil) ∧ ∀ now2, Add b now2 none = Add b now none :=
  ⟨rfl, fun _ => rfl⟩

/-- C15 (failing input): three non-nil errors all read at instant 5, capacity 10
and window 100. The keys assigned are 5, 6 and then 5 again: the third key is not
greater than the earlier ones, and the third `Add` overwrites the first entry, so
only two entries are stored. -/
theorem third_tie_key_not_greater :
    keysFrom 0 (readings ([(5, some 1), (5, some 2), (5, some 3)] : List (Call Nat)))
        = [5, 6, 5] ∧
      (addAll (NewErrorBuffer 10 100 : ErrorBuffer Nat)
        [(5, some 1), (5, some 2), (5, some 3)]).errors = [(5, 3), (6, 2)] := by
  decide

/-- C16 (as stated, refuted): with capacity 0 and window 100, after errors read at
instants 1, 2 and 3 the store holds three entries, more than `0 + 1`. -/
theorem retention_exceeds_capacity_succ_counterexample :
    ¬ (addAll (NewErrorBuffer 0 100 : ErrorBuffer Nat)
        [(1, some 1), (2, some 2), (3, some 3)]).errors.length ≤ 0 + 1 := by
  decide

/-- C16 (amended): for every buffer created with capacity `c` and every sequence of
`Add` calls that all returned nil, the store holds at most `c` entries, and after
one more `Add` call, whatever it returns, at most `c + 1`. -/
theorem Add_retains_at_most_capacity_succ {ε : Type} (c : Nat) (window : Int)
    (calls : List (Call ε)) (now : Int) (err : Option ε)
    (hnil : ∀ r ∈ addResults (NewErrorBuffer c window) calls, r = AddResult.nil) :
    (addAll (NewErrorBuffer c window) calls).errors.length ≤ c ∧
      (Add (addAll (NewErrorBuffer c window) calls) now err).1.errors.length ≤ c + 1 := by
  have h := addAll_length_le_of_nil (NewErrorBuffer c window) calls
    (by simp [NewErrorBuffer]) hnil
  have h2 := Add_errors_length_le (addAll (NewErrorBuffer c window) calls) now err
  have h3 : (NewErrorBuffer c window : ErrorBuffer ε).maxCount = c := rfl
  rw [h3] at h
  refine ⟨h, ?_⟩
  split_ifs at h2 <;> omega

/-- C16 (amended), at capacity 1 and window 100: one error returned nil, a second
one overflows and the store holds two entries. -/
theorem Add_retains_at_most_capacity_succ_witness :
    (∀ r ∈ addResults (NewErrorBuffer 1 100) [(1, some (1 : Nat))], r = AddResult.nil) ∧
      ((addAll (NewErrorBuffer 1 100) [(1, some (1 : Nat))]).errors.length ≤ 1 ∧
        (Add (addAll (NewErrorBuffer 1 100) [(1, some (1 : Nat))]) 2
          (some 2)).1.errors.length ≤ 1 + 1) :=
  ⟨by decide, Add_retains_at_most_capacity_succ 1 100 [(1, some 1)] 2 (some 2) (by decide)⟩

/-! ## A steady stream of errors -/

section steady
variable {ε : Type}

theorem steadyCalls_succ (t0 d : Int) (err : Nat → ε) (k : Nat) :
    steadyCalls t0 d err (k + 1)
      = steadyCalls t0 d err k ++ [(t0 + ((k : Int) + 1) * d, some (err k))] := by
  simp [steadyCalls, List.range_succ]

theorem steadyEntries_concat (t0 d : Int) (err : Nat → ε) (lo len : Nat) :
    steadyEntries t0 d err lo (len + 1)
      = steadyEntries t0 d err lo len
        ++ [(t0 + (((lo + len : Nat) : Int) + 1) * d, err (lo + len))] := by
  simp [steadyEntries, List.range'_concat]

theorem steadyEntries_cons (t0 d : Int) (err : Nat → ε) (lo len : Nat) :
    steadyEntries t0 d err lo (len + 1)
      = (t0 + ((lo : Int) + 1) * d, err lo) :: steadyEntries t0 d err (lo + 1) len := by
  simp [steadyEntries, List.range'_succ]

theorem steadyEntries_length (t0 d : Int) (err : Nat → ε) (lo len : Nat) :
    (steadyEntries t0 d err lo len).length = len := by
  simp [steadyEntries]

theorem steadyEntries_key_bounds (t0 d : Int) (err : Nat → ε) (lo len : Nat) (hd : 0 < d)
    (p : Int × ε) (hp : p ∈ steadyEntries t0 d err lo len) :
    t0 + ((lo : Int) + 1) * d ≤ p.1 ∧ p.1 < t0 + ((lo : Int) + (len : Int) + 1) * d := by
  obtain ⟨i, hi, rfl⟩ := List.mem_map.mp hp
  rw [List.mem_range'_1] at hi
  have h1 : (lo : Int) ≤ (i : Int) := by exact_mod_cast hi.1
  have h2 : (i : Int) < (lo : Int) + (len : Int) := by exact_mod_cast hi.2
  constructor
  · show t0 + ((lo : Int) + 1) * d ≤ t0 + ((i : Int) + 1) * d
    nlinarith
  · show t0 + ((i : Int) + 1) * d < t0 + ((lo : Int) + (len : Int) + 1) * d
    nlinarith

/-- The store after `k` calls of a steady stream whose window is `(c - 1) * d`:
the entries of the last calls, at most `c` of them, and all `k` of them while
there are fewer than `c`. -/
theorem addAll_steady (c : Nat) (t0 d : Int) (err : Nat → ε) (k : Nat) (hc : 1 ≤ c)
    (hd : 0 < d) (hpos : 0 < t0 + d) (hmax : t0 + (k : Int) * d ≤ maxInt64)
    (hwin : ((c : Int) - 1) * d ≤ maxInt64) :
    ∃ lo len, lo + len = k ∧ len ≤ c ∧ (len < c → lo = 0) ∧
      (addAll (NewErrorBuffer c (((c : Int) - 1) * d)) (steadyCalls t0 d err k)).errors
        = steadyEntries t0 d err lo len ∧
      (addAll (NewErrorBuffer c (((c : Int) - 1) * d) : ErrorBuffer ε)
        (steadyCalls t0 d err k)).previousTimestamp = if k = 0 then 0 else t0 + (k : Int) * d := by
  induction k with
  | zero => exact ⟨0, 0, rfl, Nat.zero_le _, fun _ => rfl, rfl, rfl⟩
  | succ k ih =>
    have hkd : 0 ≤ (k : Int) * d := mul_nonneg (Int.ofNat_nonneg k) hd.le
    have hcd : 0 ≤ ((c : Int) - 1) * d := mul_nonneg (by omega) hd.le
    have hmax2 : t0 + ((k : Int) + 1) * d ≤ maxInt64 := by
      have := hmax
      push_cast at this
      exact this
    obtain ⟨lo, len, hsum, hle, hlo, herr, hprev⟩ := ih (by nlinarith)
    have hsumZ : (k : Int) = (lo : Int) + (len : Int) := by exact_mod_cast hsum.symm
    rw [steadyCalls_succ, addAll_snoc]
    have hne : (addAll (NewErrorBuffer c (((c : Int) - 1) * d) : ErrorBuffer ε)
        (steadyCalls t0 d err k)).previousTimestamp ≠ t0 + ((k : Int) + 1) * d := by
      rw [hprev]
      split
      · nlinarith
      · nlinarith
    have hts : timestampFor (addAll (NewErrorBuffer c (((c : Int) - 1) * d) : ErrorBuffer ε)
        (steadyCalls t0 d err k)).previousTimestamp (t0 + ((k : Int) + 1) * d)
        = t0 + ((k : Int) + 1) * d := by
      unfold timestampFor
      rw [if_neg hne]
    have hset : orderedmap.Set (steadyEntries t0 d err lo len) (t0 + ((k : Int) + 1) * d) (err k)
        = steadyEntries t0 d err lo (len + 1) := by
      rw [Set_of_not_mem, steadyEntries_concat, hsum]
      intro hmem
      obtain ⟨p, hp, hpk⟩ := List.mem_map.mp hmem
      have := (steadyEntries_key_bounds t0 d err lo len hd p hp).2
      rw [hpk, hsumZ] at this
      exact lt_irrefl _ this
    have hcut : wrap64 (t0 + ((k : Int) + 1) * d - ((c : Int) - 1) * d)
        = t0 + ((k : Int) + 1) * d - ((c : Int) - 1) * d := by
      apply wrap64_of_range
      · unfold minInt64
        unfold maxInt64 at hwin
        nlinarith
      · nlinarith
    refine ⟨if len < c then 0 else lo + 1, if len < c then len + 1 else len, ?_, ?_, ?_, ?_, ?_⟩
    · split
      · rename_i h
        have := hlo h
        omega
      · omega
    · split <;> omega
    · intro h
      split
      · rfl
      · rename_i hn
        rw [if_neg hn] at h
        omega
    · rw [Add_errors, hts, herr, hset, addAll_window]
      show pruneLoop (wrap64 (t0 + ((k : Int) + 1) * d - ((c : Int) - 1) * d)) _ _ = _
      rw [hcut, steadyEntries_cons]
      by_cases hlt : len < c
      · rw [if_pos hlt, if_pos hlt]
        have hlo0 : lo = 0 := hlo hlt
        subst hlo0
        have hlenZ : (len : Int) + 1 ≤ (c : Int) := by exact_mod_cast hlt
        have hgap : 0 ≤ ((c : Int) - 1 - (len : Int)) * d := mul_nonneg (by omega) hd.le
        exact pruneLoop_of_oldest_ge _ _ _ (by
          simp only [Nat.cast_zero, zero_add] at hsumZ ⊢
          rw [hsumZ]
          nlinarith)
      · rw [if_neg hlt, if_neg hlt]
        have hlen : len = c := by omega
        have hlenZ : (len : Int) = (c : Int) := by exact_mod_cast hlen
        unfold pruneLoop Oldest
        simp only [List.head?_cons]
        rw [if_pos (by rw [hsumZ, hlenZ]; nlinarith)]
        apply Delete_head (t0 + ((lo : Int) + 1) * d, err lo)
        intro hmem
        obtain ⟨p, hp, hpk⟩ := List.mem_map.mp hmem
        have := (steadyEntries_key_bounds t0 d err (lo + 1) len hd p hp).1
        rw [hpk] at this
        push_cast at this
        nlinarith
    · rw [Add_previousTimestamp, hts, if_neg (Nat.succ_ne_zero k)]
      push_cast
      rfl

end steady

/-- C12: for every capacity `c ≥ 1`, spacing `d > 0` and number of calls `k`, on a
new buffer with window `(c - 1) * d`, if `k` non-nil errors are added at the
strictly positive clock readings `t0 + d`, `t0 + 2 * d`, ..., `t0 + k * d`, every
one of the `k` calls returns nil. The readings and the window are `int64`
values: none exceeds the largest `int64`. -/
theorem steady_rate_never_overflows {ε : Type} (c : Nat) (t0 d : Int) (err : Nat → ε)
    (k : Nat) (hc : 1 ≤ c) (hd : 0 < d) (hpos : 0 < t0 + d)
    (hmax : t0 + (k : Int) * d ≤ maxInt64) (hwin : ((c : Int) - 1) * d ≤ maxInt64) :
    ∀ r ∈ addResults (NewErrorBuffer c (((c : Int) - 1) * d)) (steadyCalls t0 d err k),
      r = AddResult.nil := by
  induction k with
  | zero => intro r hr; simp [steadyCalls, addResults] at hr
  | succ k ih =>
    intro r hr
    rw [steadyCalls_succ, addResults_snoc, List.mem_append, List.mem_singleton] at hr
    rcases hr with hr | rfl
    · refine ih ?_ r hr
      push_cast at hmax
      nlinarith
    · by_contra hne
      have hlen := (Add_result_ne_nil_iff _ _ _).mp hne
      rw [addAll_maxCount, ← addAll_snoc, ← steadyCalls_succ] at hlen
      obtain ⟨lo, len, _, hle, _, herr, _⟩ :=
        addAll_steady c t0 d err (k + 1) hc hd hpos hmax hwin
      rw [herr, steadyEntries_length] at hlen
      have h4 : (NewErrorBuffer c (((c : Int) - 1) * d) : ErrorBuffer ε).maxCount = c := rfl
      omega

/-- C12, at capacity 5, one error per 60 from instant 0 on, 10 calls, window
`(5 - 1) * 60`: the scenario of the repository's test. -/
theorem steady_rate_never_overflows_witness :
    1 ≤ 5 ∧ (0 : Int) < 60 ∧ (0 : Int) < 0 + 60 ∧
      (0 : Int) + ((10 : Nat) : Int) * 60 ≤ maxInt64 ∧
      (((5 : Nat) : Int) - 1) * 60 ≤ maxInt64 ∧
      ∀ r ∈ addResults (NewErrorBuffer 5 ((((5 : Nat) : Int) - 1) * 60))
        (steadyCalls 0 60 (fun i => i) 10), r = AddResult.nil :=
  ⟨by decide, by decide, by decide, by decide, by decide,
    steady_rate_never_overflows 5 0 60 (fun i => i) 10 (by decide) (by decide) (by decide)
      (by decide) (by decide)⟩

/-- C13 (as stated, refuted): capacity 1, window 10. After an error read at 5, an
error read at 6 gets a non-nil result; the next call reads 5 (the clock went
back), no stored key is below `5 - 10`, yet the entry stored under key 5 by the
first call is replaced and is no longer in the store. And with capacity 1 and
window `2 ^ 63 - 1`, after errors read at 3, 4 and -9, an error read at -10 gets
a non-nil result; the next call reads -10 again, no stored key is below
`-10 - (2 ^ 63 - 1)`, yet that call returns nil: the `int64` cutoff has wrapped
around and the oldest entry is pruned. -/
theorem entry_replaced_after_overflow_counterexample :
    ((Add (addAll (NewErrorBuffer 1 10 : ErrorBuffer Nat) [(5, some 1)]) 6
        (some 2)).2 ≠ AddResult.nil ∧
      (∀ p ∈ (Add (addAll (NewErrorBuffer 1 10 : ErrorBuffer Nat) [(5, some 1)]) 6
          (some 2)).1.errors, 5 - 10 ≤ p.1) ∧
      ¬ ∀ p ∈ (Add (addAll (NewErrorBuffer 1 10 : ErrorBuffer Nat) [(5, some 1)]) 6
          (some 2)).1.errors,
        p ∈ (Add (Add (addAll (NewErrorBuffer 1 10 : ErrorBuffer Nat) [(5, some 1)]) 6
          (some 2)).1 5 (some 3)).1.errors) ∧
    ((Add (addAll (NewErrorBuffer 1 9223372036854775807 : ErrorBuffer Nat)
        [(3, some 1), (4, some 2), (-9, some 3)]) (-10) (some 4)).2 ≠ AddResult.nil ∧
      (∀ p ∈ (Add (addAll (NewErrorBuffer 1 9223372036854775807 : ErrorBuffer Nat)
          [(3, some 1), (4, some 2), (-9, some 3)]) (-10) (some 4)).1.errors,
        -10 - 9223372036854775807 ≤ p.1) ∧
      (Add (Add (addAll (NewErrorBuffer 1 9223372036854775807 : ErrorBuffer Nat)
          [(3, some 1), (4, some 2), (-9, some 3)]) (-10) (some 4)).1 (-10) (some 5)).2
        = AddResult.nil) := by
  decide

/-- C13 (amended): for every buffer, if an `Add` call returned a non-nil result,
and the next `Add` call receives a non-nil error at a clock reading `now2` such
that `now2 - window` is not below the smallest `int64` and no entry in the store
has a key below `now2 - window`, then the next call also returns a non-nil
result, and every entry that was in the store after the first call is still in
the store, unless its key is the key assigned by the next call. -/
theorem Add_again_after_overflow {ε : Type} (b : ErrorBuffer ε) (now : Int) (err : Option ε)
    (now2 : Int) (err2 : ε)
    (hfirst : (Add b now err).2 ≠ AddResult.nil)
    (hlo : minInt64 ≤ now2 - b.window)
    (hwin : ∀ p ∈ (Add b now err).1.errors, now2 - b.window ≤ p.1) :
    (Add (Add b now err).1 now2 (some err2)).2 ≠ AddResult.nil ∧
      ∀ p ∈ (Add b now err).1.errors,
        p.1 ≠ timestampFor (Add b now err).1.previousTimestamp now2 →
          p ∈ (Add (Add b now err).1 now2 (some err2)).1.errors := by
  have hlen : b.maxCount < (Add b now err).1.errors.length := by
    cases err with
    | none => exact absurd rfl hfirst
    | some e => exact (Add_result_ne_nil_iff b now e).mp hfirst
  have hcut := wrap64_le_self (now2 - b.window) hlo
  have hstore : (Add (Add b now err).1 now2 (some err2)).1.errors
      = orderedmap.Set (Add b now err).1.errors
          (timestampFor (Add b now err).1.previousTimestamp now2) err2 := by
    rw [Add_errors, Add_window]
    cases hs : (Add b now err).1.errors with
    | nil => rw [hs] at hlen; simp at hlen
    | cons p rest =>
      obtain ⟨q, hq, hqk⟩ := Set_oldest_key p rest
        (timestampFor (Add b now err).1.previousTimestamp now2) err2
      rw [hq]
      have := hwin p (by rw [hs]; simp)
      exact pruneLoop_of_oldest_ge _ q _ (by omega)
  constructor
  · rw [Add_result_ne_nil_iff, hstore, Add_maxCount]
    exact lt_of_lt_of_le hlen (Set_length_ge _ _ _)
  · intro p hp hne
    rw [hstore]
    exact Set_mem_of_ne _ _ _ p hp hne

/-- C13 (amended), at capacity 1 and window 10 with readings 5, 6 and then 7. -/
theorem Add_again_after_overflow_witness :
    (Add (addAll (NewErrorBuffer 1 10) [(5, some (1 : Nat))]) 6 (some 2)).2 ≠ AddResult.nil ∧
      minInt64 ≤ 7 - (addAll (NewErrorBuffer 1 10) [(5, some (1 : Nat))]).window ∧
      (∀ p ∈ (Add (addAll (NewErrorBuffer 1 10) [(5, some (1 : Nat))]) 6 (some 2)).1.errors,
        7 - (addAll (NewErrorBuffer 1 10) [(5, some (1 : Nat))]).window ≤ p.1) ∧
      ((Add (Add (addAll (NewErrorBuffer 1 10) [(5, some (1 : Nat))]) 6 (some 2)).1 7
          (some 3)).2 ≠ AddResult.nil ∧
        ∀ p ∈ (Add (addAll (NewErrorBuffer 1 10) [(5, some (1 : Nat))]) 6 (some 2)).1.errors,
          p.1 ≠ timestampFor (Add (addAll (NewErrorBuffer 1 10) [(5, some (1 : Nat))]) 6
              (some 2)).1.previousTimestamp 7 →
            p ∈ (Add (Add (addAll (NewErrorBuffer 1 10) [(5, some (1 : Nat))]) 6 (some 2)).1 7
              (some 3)).1.errors) :=
  ⟨by decide, by decide, by decide,
    Add_again_after_overflow (addAll (NewErrorBuffer 1 10) [(5, some (1 : Nat))]) 6 (some 2) 7 3
      (by decide) (by decide) (by decide)⟩

/-! ## Capacity 0 and window 0 -/

section zero
variable {ε : Type}

/-- One `Add` on a buffer with capacity 0 and window 0 whose store is empty or a
single entry older than `now`, `now` being an `int64` other than the last-used
timestamp: the store becomes the single new entry and the error is returned
unwrapped. -/
theorem Add_single_entry (b : ErrorBuffer ε) (now : Int) (err : ε)
    (hcap : b.maxCount = 0) (hwin : b.window = 0) (hprev : b.previousTimestamp ≠ now)
    (hlo : minInt64 ≤ now) (hhi : now ≤ maxInt64)
    (hstore : b.errors = [] ∨ ∃ last e, b.errors = [(last, e)] ∧ last < now) :
    (Add b now (some err)).1.errors = [(now, err)] ∧
      (Add b now (some err)).1.previousTimestamp = now ∧
      (Add b now (some err)).2 = AddResult.passthrough err := by
  have hts : timestampFor b.previousTimestamp now = now := by
    unfold timestampFor; rw [if_neg hprev]
  have hcut : wrap64 (now - 0) = now := by
    rw [sub_zero]
    exact wrap64_of_range now hlo hhi
  have herr : (Add b now (some err)).1.errors = [(now, err)] := by
    rw [Add_errors, hts, hwin, hcut]
    rcases hstore with h | ⟨last, e, h, hlt⟩
    · rw [h]
      simp [orderedmap.Set, pruneLoop, Oldest]
    · rw [h]
      have hne : ¬ last = now := by omega
      have hne2 : ¬ now = last := by omega
      simp [orderedmap.Set, pruneLoop, Oldest, Delete, hne, hne2, hlt]
  refine ⟨herr, by rw [Add_previousTimestamp, hts], ?_⟩
  rw [Add_result, herr, hcap]
  simp

/-- With capacity 0 and window 0, after calls whose clock readings are `int64`
values that increase strictly, the first not being 0, the buffer is new or holds
the single entry of the last reading, which is also the last-used timestamp. -/
theorem addAll_zero_zero (calls : List (Call ε))
    (hinc : (readings calls).Pairwise (fun r r2 => r < r2))
    (h0 : (readings calls).head? ≠ some 0)
    (hrep : ∀ r ∈ readings calls, minInt64 ≤ r ∧ r ≤ maxInt64) :
    (readings calls = [] ∧ addAll (NewErrorBuffer 0 0) calls = NewErrorBuffer 0 0) ∨
      ∃ last e, (readings calls).getLast? = some last ∧
        (addAll (NewErrorBuffer 0 0 : ErrorBuffer ε) calls).errors = [(last, e)] ∧
        (addAll (NewErrorBuffer 0 0 : ErrorBuffer ε) calls).previousTimestamp = last := by
  induction calls using List.list_reverse_induction with
  | base => left; exact ⟨rfl, rfl⟩
  | ind calls call ih =>
    obtain ⟨now, err⟩ := call
    cases err with
    | none =>
      rw [readings_snoc_none] at hinc h0 hrep ⊢
      rw [addAll_snoc, Add_none]
      exact ih hinc h0 hrep
    | some e =>
      rw [readings_snoc_some] at hinc h0 hrep ⊢
      rw [addAll_snoc]
      right
      rw [List.pairwise_append] at hinc
      obtain ⟨hm1, _, hm2⟩ := hinc
      have hcap : (addAll (NewErrorBuffer 0 0 : ErrorBuffer ε) calls).maxCount = 0 :=
        addAll_maxCount _ _
      have hwin : (addAll (NewErrorBuffer 0 0 : ErrorBuffer ε) calls).window = 0 :=
        addAll_window _ _
      have hnow := hrep now (by simp)
      have hrep1 : ∀ r ∈ readings calls, minInt64 ≤ r ∧ r ≤ maxInt64 :=
        fun r hr => hrep r (List.mem_append_left _ hr)
      by_cases hnil : readings calls = []
      · rw [hnil] at h0
        rcases ih hm1 (by simp [hnil]) hrep1 with ⟨_, hnew⟩ | ⟨last, e2, hl, _⟩
        · have hne0 : now ≠ 0 := by simpa using h0
          have := Add_single_entry (addAll (NewErrorBuffer 0 0 : ErrorBuffer ε) calls) now e
            hcap hwin (by rw [hnew]; exact fun h => hne0 h.symm) hnow.1 hnow.2
            (Or.inl (by rw [hnew]; rfl))
          exact ⟨now, e, by simp, this.1, this.2.1⟩
        · simp [hnil] at hl
      · have h0' : (readings calls).head? ≠ some 0 := by
          cases hr : readings calls with
          | nil => exact absurd hr hnil
          | cons r rs => rw [hr] at h0; simpa using h0
        rcases ih hm1 h0' hrep1 with ⟨hnil', _⟩ | ⟨last, e2, hl, herr, hprev⟩
        · exact absurd hnil' hnil
        · have hlt : last < now :=
            hm2 last (List.mem_of_getLast?_eq_some hl) now (by simp)
          have := Add_single_entry (addAll (NewErrorBuffer 0 0 : ErrorBuffer ε) calls) now e
            hcap hwin (by rw [hprev]; omega) hnow.1 hnow.2 (Or.inr ⟨last, e2, herr, hlt⟩)
          exact ⟨now, e, by simp, this.1, this.2.1⟩

end zero

/-- C14 (as stated, refuted): capacity 0 and window 0, two errors both read at
instant 5. The second call keeps two entries (keys 5 and 6, neither below the
cutoff 5) and returns an aggregate, not the error itself. -/
theorem zero_zero_same_instant_counterexample :
    addResults (NewErrorBuffer 0 0 : ErrorBuffer Nat) [(5, some 1), (5, some 2)]
      = [AddResult.passthrough 1, AddResult.aggregate 2 1 [(5, 1), (6, 2)]] := by
  decide

/-- C14 (amended): for a buffer created with capacity 0 and window 0, in every
state reached by `Add` calls whose clock readings increase strictly, the first
reading not being 0, every `Add` of a non-nil error `err` read later than the
earlier calls takes the single-error path: exactly one entry, the new one, is
left after pruning and `Add` returns `err` itself, unwrapped. The clock readings
are `int64` values: none is below the smallest or above the largest `int64`. -/
theorem Add_zero_capacity_zero_window {ε : Type} (calls : List (Call ε)) (now : Int) (err : ε)
    (hinc : (readings (calls ++ [(now, some err)])).Pairwise (fun r r2 => r < r2))
    (h0 : (readings (calls ++ [(now, some err)])).head? ≠ some 0)
    (hrep : ∀ r ∈ readings (calls ++ [(now, some err)]), minInt64 ≤ r ∧ r ≤ maxInt64) :
    (Add (addAll (NewErrorBuffer 0 0) calls) now (some err)).1.errors = [(now, err)] ∧
      (Add (addAll (NewErrorBuffer 0 0) calls) now (some err)).2
        = AddResult.passthrough err := by
  have h := addAll_zero_zero (calls ++ [(now, some err)]) hinc h0 hrep
  rw [readings_snoc_some, addAll_snoc] at h
  have hres := Add_result (addAll (NewErrorBuffer 0 0 : ErrorBuffer ε) calls) now err
  rcases h with ⟨hnil, _⟩ | ⟨last, e, hl, herr, hprev⟩
  · simp at hnil
  · rw [List.getLast?_concat] at hl
    simp only [Option.some.injEq] at hl
    subst hl
    have hnow := hrep now (by rw [readings_snoc_some]; simp)
    rw [Add_previousTimestamp] at hprev
    have hmem := Add_new_entry_mem (addAll (NewErrorBuffer 0 0 : ErrorBuffer ε) calls) now err
      (by
        rw [addAll_window]
        have hw : (NewErrorBuffer 0 0 : ErrorBuffer ε).window = 0 := rfl
        rw [hw, sub_zero, wrap64_of_range now hnow.1 hnow.2, hprev])
    rw [herr] at hmem
    simp only [List.mem_singleton, Prod.mk.injEq] at hmem
    rw [herr, addAll_maxCount] at hres
    refine ⟨by rw [herr, hmem.2], ?_⟩
    rw [hres]
    simp [NewErrorBuffer]

/-- C14 (amended), at readings 5, 6 and then 9. -/
theorem Add_zero_capacity_zero_window_witness :
    (readings ([(5, some 1), (6, some 2)] ++ [((9 : Int), some (3 : Nat))])).Pairwise
        (fun r r2 => r < r2) ∧
      (readings ([(5, some 1), (6, some 2)] ++ [((9 : Int), some (3 : Nat))])).head? ≠ some 0 ∧
      (∀ r ∈ readings ([(5, some 1), (6, some 2)] ++ [((9 : Int), some (3 : Nat))]),
        minInt64 ≤ r ∧ r ≤ maxInt64) ∧
      ((Add (addAll (NewErrorBuffer 0 0) [(5, some 1), (6, some 2)]) 9
          (some (3 : Nat))).1.errors = [(9, 3)] ∧
        (Add (addAll (NewErrorBuffer 0 0) [(5, some 1), (6, some 2)]) 9 (some (3 : Nat))).2
          = AddResult.passthrough 3) :=
  ⟨by decide, by decide, by decide,
    Add_zero_capacity_zero_window [(5, some 1), (6, some 2)] 9 3 (by decide) (by decide)
      (by decide)⟩

/-- C17 (as stated, refuted): capacity 0 and window `2 ^ 63 - 1`, after errors
read at 7, -10 and 5; the `Add` of error 4, read at -10, returns it unwrapped,
but the single entry left in the store holds error 3 under key 5: error 4
replaced the oldest entry, of key -10, which the wrapped cutoff then pruned. And
capacity 0 and window 0, after errors read at 5, `-2 ^ 63` and `2 ^ 63 - 1`; the
`Add` of error 4, read at `2 ^ 63 - 1` again, returns it unwrapped, but the
single entry left holds error 3: the tie-break wrapped the key of error 4 around
to `-2 ^ 63`, the key of the oldest entry. -/
theorem passthrough_of_pruned_error_counterexample :
    ((0 : Int) ≤ (addAll (NewErrorBuffer 0 9223372036854775807 : ErrorBuffer Nat)
        [(7, some 1), (-10, some 2), (5, some 3)]).window ∧
      (Add (addAll (NewErrorBuffer 0 9223372036854775807 : ErrorBuffer Nat)
        [(7, some 1), (-10, some 2), (5, some 3)]) (-10) (some 4)).2
          = AddResult.passthrough 4 ∧
      (Add (addAll (NewErrorBuffer 0 9223372036854775807 : ErrorBuffer Nat)
        [(7, some 1), (-10, some 2), (5, some 3)]) (-10) (some 4)).1.errors = [(5, 3)]) ∧
    ((0 : Int) ≤ (addAll (NewErrorBuffer 0 0 : ErrorBuffer Nat)
        [(5, some 1), (-9223372036854775808, some 2), (9223372036854775807, some 3)]).window ∧
      (Add (addAll (NewErrorBuffer 0 0 : ErrorBuffer Nat)
        [(5, some 1), (-9223372036854775808, some 2), (9223372036854775807, some 3)])
        9223372036854775807 (some 4)).2 = AddResult.passthrough 4 ∧
      (Add (addAll (NewErrorBuffer 0 0 : ErrorBuffer Nat)
        [(5, some 1), (-9223372036854775808, some 2), (9223372036854775807, some 3)])
        9223372036854775807 (some 4)).1.errors = [(9223372036854775807, 3)]) := by
  decide

/-- C17 (amended): for every buffer state, if `Add` returns an unwrapped error
for the non-nil argument `err`, then the capacity is 0, the returned error is
`err` and exactly one entry is left after pruning; when moreover `window ≥ 0`,
the clock reading `now` is below the largest `int64` and `now - window` is not
below the smallest `int64`, that entry holds `err` under the key of this call;
and whenever the number `n` of entries left exceeds the capacity and 1, the
result is an aggregate reporting `n` with at least two causes. -/
theorem Add_passthrough_classification {ε : Type} (b : ErrorBuffer ε) (now : Int) (err : ε) :
    (∀ e2, (Add b now (some err)).2 = AddResult.passthrough e2 →
        b.maxCount = 0 ∧ e2 = err ∧ (Add b now (some err)).1.errors.length = 1) ∧
      (0 ≤ b.window → minInt64 ≤ now - b.window → now < maxInt64 →
        ∀ e2, (Add b now (some err)).2 = AddResult.passthrough e2 →
          (Add b now (some err)).1.errors = [(timestampFor b.previousTimestamp now, err)]) ∧
      (b.maxCount < (Add b now (some err)).1.errors.length →
        1 < (Add b now (some err)).1.errors.length →
          ∃ sp causes,
            (Add b now (some err)).2
                = AddResult.aggregate (Add b now (some err)).1.errors.length sp causes ∧
              2 ≤ causes.length) := by
  have hpass : ∀ e2, (Add b now (some err)).2 = AddResult.passthrough e2 →
      b.maxCount = 0 ∧ e2 = err ∧ (Add b now (some err)).1.errors.length = 1 := by
    intro e2 hres
    rw [Add_result] at hres
    split_ifs at hres with h1 h2
    simp only [AddResult.passthrough.injEq] at hres
    exact ⟨by omega, hres.symm, h2⟩
  refine ⟨hpass, ?_, ?_⟩
  · intro hw hlo hhi e2 hres
    have hmem := Add_new_entry_mem b now err
      (cutoff_le_timestampFor b.previousTimestamp now b.window hw hlo hhi)
    obtain ⟨a, ha⟩ := List.length_eq_one.mp (hpass e2 hres).2.2
    rw [ha] at hmem ⊢
    simp only [List.mem_singleton] at hmem
    rw [hmem]
  · intro h1 h2
    refine ⟨span (Add b now (some err)).1.errors, (Add b now (some err)).1.errors, ?_, h2⟩
    rw [Add_result]
    rw [if_neg (by omega), if_neg (by omega)]

/-- C17 (amended), on the capacity-0 buffer with window 0 that holds one error
read at 5, at reading 7: the error is returned unwrapped and the store is its
single entry. -/
theorem Add_passthrough_classification_witness :
    0 ≤ (addAll (NewErrorBuffer 0 0) [(5, some (1 : Nat))]).window ∧
      minInt64 ≤ 7 - (addAll (NewErrorBuffer 0 0) [(5, some (1 : Nat))]).window ∧
      (7 : Int) < maxInt64 ∧
      (Add (addAll (NewErrorBuffer 0 0) [(5, some (1 : Nat))]) 7 (some 2)).2
        = AddResult.passthrough 2 ∧
      (Add (addAll (NewErrorBuffer 0 0) [(5, some (1 : Nat))]) 7 (some 2)).1.errors
        = [(timestampFor (addAll (NewErrorBuffer 0 0) [(5, some (1 : Nat))]).previousTimestamp 7,
            2)] :=
  ⟨by decide, by decide, by decide, by decide,
    (Add_passthrough_classification (addAll (NewErrorBuffer 0 0) [(5, some (1 : Nat))]) 7 2).2.1
      (by decide) (by decide) (by decide) 2 (by decide)⟩

/-- C18 (as stated, refuted): on a new buffer with window `2 ^ 63 - 1`, after the
`Add` of error 7 read at instant -10 the store is empty: the cutoff has wrapped
around to `2 ^ 63 - 9` and the entry just stored is pruned. And on a buffer with
window 0 whose last error was read at `2 ^ 63 - 1`, an error read at that
instant again gets the key `-2 ^ 63`, which is neither the reading nor the
reading plus one. -/
theorem new_entry_pruned_at_wrapped_cutoff :
    ((0 : Int) ≤ (NewErrorBuffer 1 9223372036854775807 : ErrorBuffer Nat).window ∧
      (Add (NewErrorBuffer 1 9223372036854775807 : ErrorBuffer Nat) (-10)
        (some 7)).1.errors = [] ∧
      ¬ 1 ≤ (Add (NewErrorBuffer 1 9223372036854775807 : ErrorBuffer Nat) (-10)
        (some 7)).1.errors.length) ∧
    ((Add (addAll (NewErrorBuffer 1 0 : ErrorBuffer Nat) [(9223372036854775807, some 1)])
        9223372036854775807 (some 2)).1.previousTimestamp = -9223372036854775808 ∧
      timestampFor (addAll (NewErrorBuffer 1 0 : ErrorBuffer Nat)
        [(9223372036854775807, some 1)]).previousTimestamp 9223372036854775807
          ≠ 9223372036854775807 ∧
      timestampFor (addAll (NewErrorBuffer 1 0 : ErrorBuffer Nat)
        [(9223372036854775807, some 1)]).previousTimestamp 9223372036854775807
          ≠ 9223372036854775807 + 1) := by
  decide

/-- C18 (amended): for every buffer state and every clock reading `now`, after
`Add` of a non-nil error `err` the last-used timestamp is the key assigned in
that call; when `now` is an `int64` below the largest one, that key is the
clock reading or the reading plus one; and when moreover `window ≥ 0` and
`now - window` is not below the smallest `int64`, the store contains `err`
under that key and holds at least one entry. -/
theorem Add_new_entry_survives {ε : Type} (b : ErrorBuffer ε) (now : Int) (err : ε) :
    (Add b now (some err)).1.previousTimestamp = timestampFor b.previousTimestamp now ∧
      (minInt64 ≤ now → now < maxInt64 →
        (timestampFor b.previousTimestamp now = now ∨
          timestampFor b.previousTimestamp now = now + 1)) ∧
      (0 ≤ b.window → minInt64 ≤ now - b.window → now < maxInt64 →
        (timestampFor b.previousTimestamp now, err) ∈ (Add b now (some err)).1.errors ∧
          1 ≤ (Add b now (some err)).1.errors.length) := by
  refine ⟨Add_previousTimestamp b now err, timestampFor_eq b.previousTimestamp now, ?_⟩
  intro hw hlo hhi
  have hmem := Add_new_entry_mem b now err
    (cutoff_le_timestampFor b.previousTimestamp now b.window hw hlo hhi)
  exact ⟨hmem, List.length_pos_of_mem hmem⟩

/-- C18 (amended), on the buffer with window 3 that holds errors read at 5 and
6, at reading 20: the new entry is stored under key 20 and stays. -/
theorem Add_new_entry_survives_witness :
    0 ≤ (addAll (NewErrorBuffer 1 3) [(5, some (1 : Nat)), (6, some 2)]).window ∧
      minInt64 ≤ 20 - (addAll (NewErrorBuffer 1 3) [(5, some (1 : Nat)), (6, some 2)]).window ∧
      (20 : Int) < maxInt64 ∧
      ((timestampFor
            (addAll (NewErrorBuffer 1 3) [(5, some (1 : Nat)), (6, some 2)]).previousTimestamp 20,
          3) ∈ (Add (addAll (NewErrorBuffer 1 3) [(5, some (1 : Nat)), (6, some 2)]) 20
            (some 3)).1.errors ∧
        1 ≤ (Add (addAll (NewErrorBuffer 1 3) [(5, some (1 : Nat)), (6, some 2)]) 20
            (some 3)).1.errors.length) :=
  ⟨by decide, by decide, by decide,
    (Add_new_entry_survives (addAll (NewErrorBuffer 1 3) [(5, some (1 : Nat)), (6, some 2)]) 20
      3).2.2 (by decide) (by decide) (by decide)⟩

/-- C19 (as stated, refuted): the store holds one entry, of key -10, and the
window is `2 ^ 63 - 1`. The key is not below `now - window` for `now = -10`, yet
`prune` deletes the entry: its `int64` cutoff has wrapped around to `2 ^ 63 - 9`. -/
theorem prune_drops_in_window_entry_counterexample :
    (((⟨0, 9223372036854775807, [(-10, 1)], -10⟩ : ErrorBuffer Nat).errors.map Prod.fst).Nodup) ∧
      ∃ p ∈ (⟨0, 9223372036854775807, [(-10, 1)], -10⟩ : ErrorBuffer Nat).errors,
        -10 - (⟨0, 9223372036854775807, [(-10, 1)], -10⟩ : ErrorBuffer Nat).window ≤ p.1 ∧
          p ∉ (prune (⟨0, 9223372036854775807, [(-10, 1)], -10⟩ : ErrorBuffer Nat) (-10)).errors :=
  ⟨by decide, (-10, 1), by decide, by decide, by decide⟩

/-- C19 (amended): for every store (a map: no two pairs share a key) and every
instant `now` such that `now - window` is not below the smallest `int64`, every
entry whose key is at least `now - window` is still in the store after
`prune(now)`; the store after pruning is the store before it without a leading
run of entries, taken from the oldest end, whose keys are all below
`now - window`, so the entries kept have their values and their relative order;
capacity, window and last-used timestamp are unchanged. -/
theorem prune_keeps_window_entries {ε : Type} (b : ErrorBuffer ε) (now : Int)
    (hmap : (b.errors.map Prod.fst).Nodup) (hlo : minInt64 ≤ now - b.window) :
    (∀ p ∈ b.errors, now - b.window ≤ p.1 → p ∈ (prune b now).errors) ∧
      (∃ removed, b.errors = removed ++ (prune b now).errors ∧
        ∀ p ∈ removed, p.1 < now - b.window) ∧
      (prune b now).errors.Sublist b.errors ∧
      (prune b now).maxCount = b.maxCount ∧ (prune b now).window = b.window ∧
      (prune b now).previousTimestamp = b.previousTimestamp := by
  have hcut := wrap64_le_self (now - b.window) hlo
  refine ⟨fun p hp hc => pruneLoop_mem_of_le _ _ _ p hp (by omega), ?_,
    pruneLoop_sublist _ _ _, rfl, rfl, rfl⟩
  show ∃ removed, b.errors
      = removed ++ pruneLoop (wrap64 (now - b.window)) (Oldest b.errors) b.errors ∧ _
  cases hs : b.errors with
  | nil => exact ⟨[], rfl, fun p hp => absurd hp (List.not_mem_nil p)⟩
  | cons q rest =>
    rw [hs, List.map_cons, List.nodup_cons] at hmap
    by_cases hq : q.1 < wrap64 (now - b.window)
    · refine ⟨[q], ?_, ?_⟩
      · unfold pruneLoop Oldest
        simp only [List.head?_cons]
        rw [if_pos hq, Delete_head q rest hmap.1]
        rfl
      · intro p hp
        rw [List.mem_singleton] at hp
        rw [hp]
        omega
    · refine ⟨[], ?_, fun p hp => absurd hp (List.not_mem_nil p)⟩
      unfold pruneLoop Oldest
      simp only [List.head?_cons]
      rw [if_neg hq]
      rfl

/-- C19 (amended), on a store with keys 5, 6, 9 at window 3 and instant 9. -/
theorem prune_keeps_window_entries_witness :
    (((⟨1, 3, [(5, 1), (6, 2), (9, 3)], 9⟩ : ErrorBuffer Nat).errors.map Prod.fst).Nodup) ∧
      minInt64 ≤ 9 - (⟨1, 3, [(5, 1), (6, 2), (9, 3)], 9⟩ : ErrorBuffer Nat).window ∧
      ((∀ p ∈ (⟨1, 3, [(5, 1), (6, 2), (9, 3)], 9⟩ : ErrorBuffer Nat).errors,
          9 - (⟨1, 3, [(5, 1), (6, 2), (9, 3)], 9⟩ : ErrorBuffer Nat).window ≤ p.1 →
            p ∈ (prune (⟨1, 3, [(5, 1), (6, 2), (9, 3)], 9⟩ : ErrorBuffer Nat) 9).errors) ∧
        (∃ removed, (⟨1, 3, [(5, 1), (6, 2), (9, 3)], 9⟩ : ErrorBuffer Nat).errors
            = removed ++ (prune (⟨1, 3, [(5, 1), (6, 2), (9, 3)], 9⟩ : ErrorBuffer Nat) 9).errors ∧
          ∀ p ∈ removed,
            p.1 < 9 - (⟨1, 3, [(5, 1), (6, 2), (9, 3)], 9⟩ : ErrorBuffer Nat).window) ∧
        (prune (⟨1, 3, [(5, 1), (6, 2), (9, 3)], 9⟩ : ErrorBuffer Nat) 9).errors.Sublist
          (⟨1, 3, [(5, 1), (6, 2), (9, 3)], 9⟩ : ErrorBuffer Nat).errors ∧
        (prune (⟨1, 3, [(5, 1), (6, 2), (9, 3)], 9⟩ : ErrorBuffer Nat) 9).maxCount
          = (⟨1, 3, [(5, 1), (6, 2), (9, 3)], 9⟩ : ErrorBuffer Nat).maxCount ∧
        (prune (⟨1, 3, [(5, 1), (6, 2), (9, 3)], 9⟩ : ErrorBuffer Nat) 9).window
          = (⟨1, 3, [(5, 1), (6, 2), (9, 3)], 9⟩ : ErrorBuffer Nat).window ∧
        (prune (⟨1, 3, [(5, 1), (6, 2), (9, 3)], 9⟩ : ErrorBuffer Nat) 9).previousTimestamp
          = (⟨1, 3, [(5, 1), (6, 2), (9, 3)], 9⟩ : ErrorBuffer Nat).previousTimestamp) :=
  ⟨by decide, by decide,
    prune_keeps_window_entries ⟨1, 3, [(5, 1), (6, 2), (9, 3)], 9⟩ 9 (by decide) (by decide)⟩

end go_error_buffer
